import Mathlib

/-!
Verification of the stellar encrypted-vault subsystem.

The Rust sources under src/vault are shallowly embedded: byte strings are
lists of naturals below 256, the OS randomness source is an explicit tape,
and the external crates (aes_gcm, argon2, sha2, rand) are modelled by
deterministic executable stand-ins that keep the structure the vault code
relies on (layout salt‖nonce‖ciphertext‖tag, tag verification, fresh
random draws, collision-free digests on short inputs).
-/

set_option maxRecDepth 4000

/-- Byte-string well-formedness: every element of the list is a byte. -/
def Bytes (bs : List Nat) : Prop := ∀ b ∈ bs, b < 256

instance (bs : List Nat) : Decidable (Bytes bs) := by
  unfold Bytes
  infer_instance

/-- The is_alphanumeric test, spelled out as in core (alpha or digit);
a local copy because the kernel rejects terms mentioning Char.isAlphanum
in decidability instances. -/
def isAlphanumChar (c : Char) : Bool := c.isAlpha || c.isDigit

/-- Explicit model of the OS randomness source behind rand::thread_rng: an
infinite tape of values and the position of the next unread cell. Every
read advances the position, so successive reads see disjoint tape
segments — this is what "fresh random" means in this embedding. -/
structure Rng where
  stream : Nat → Nat
  pos : Nat

/-- Model of rand's fill_bytes: read n bytes off the tape and advance. -/
def fillBytes (r : Rng) (n : Nat) : List Nat × Rng :=
  ((List.range n).map (fun i => r.stream (r.pos + i) % 256),
   ⟨r.stream, r.pos + n⟩)

/-- Constants of src/vault/crypto.rs. -/
def SALT_SIZE : Nat := 32

def NONCE_SIZE : Nat := 12

def KEY_SIZE : Nat := 32

def TAG_SIZE : Nat := 16

/-- crypto.rs generate_salt: 32 fresh random bytes. -/
def generate_salt (r : Rng) : List Nat × Rng := fillBytes r SALT_SIZE

/-- crypto.rs generate_nonce: 12 fresh random bytes. -/
def generate_nonce (r : Rng) : List Nat × Rng := fillBytes r NONCE_SIZE

/-- Injective base-257 packing of a byte string into one natural number
(byte b becomes digit b+1, so lists of different lengths stay distinct).
Used by the stand-ins for the external hash and AEAD primitives. -/
def encodeBytes (bs : List Nat) : Nat :=
  bs.foldr (fun b acc => (b + 1) + 257 * acc) 0

/-- Little-endian base-256 digits of n, fuel-bounded (so at most fuel digits). -/
def toDigits : Nat → Nat → List Nat
  | 0, _ => []
  | fuel + 1, n => if n = 0 then [] else n % 256 :: toDigits fuel (n / 256)

/-- Inverse reading of a little-endian base-256 digit list. -/
def fromDigits (ds : List Nat) : Nat := ds.foldr (fun d acc => d + 256 * acc) 0

/-- Modelled from the external sha2 crate: SHA-256 as a 32-byte digest,
with collision resistance idealised as injectivity on inputs of at most
31 bytes (the vault hashes only short recovery-code strings). -/
def sha256 (bs : List Nat) : List Nat :=
  let ds := toDigits 32 (encodeBytes bs)
  ds ++ List.replicate (32 - ds.length) 0

/-- Modelled from the external aes_gcm crate: the CTR keystream of
AES-256-GCM, a deterministic byte stream determined by key and nonce. -/
def keystream (key nonce : List Nat) (n : Nat) : List Nat :=
  (List.range n).map (fun i => (encodeBytes (key ++ nonce) + i) % 256)

/-- Pointwise XOR of two byte strings (truncating to the shorter). -/
def xorBytes (a b : List Nat) : List Nat := List.zipWith Nat.xor a b

/-- Modelled from the external aes_gcm crate: the 16-byte GCM
authentication tag, idealised as an injective fingerprint of key, nonce
and ciphertext padded to TAG_SIZE cells. -/
def tagOf (key nonce ct : List Nat) : List Nat :=
  encodeBytes (key ++ nonce ++ ct) :: List.replicate (TAG_SIZE - 1) 0

/-- Modelled from the external aes_gcm crate: AEAD encryption returns
ciphertext body followed by the tag. -/
def aeadEncrypt (key nonce data : List Nat) : List Nat :=
  let body := xorBytes data (keystream key nonce data.length)
  body ++ tagOf key nonce body

/-- Modelled from the external aes_gcm crate: AEAD decryption fails exactly
when the input is shorter than a tag or the recomputed tag mismatches. -/
def aeadDecrypt (key nonce ct : List Nat) : Option (List Nat) :=
  if ct.length < TAG_SIZE then none
  else
    let body := ct.take (ct.length - TAG_SIZE)
    let tag := ct.drop (ct.length - TAG_SIZE)
    if tag = tagOf key nonce body then
      some (xorBytes body (keystream key nonce body.length))
    else none

/-- The error enum of src/vault/mod.rs (payload paths kept as strings,
io::Error payloads dropped). -/
inductive VaultError where
  | InvalidPassword
  | FileNotFound (p : String)
  | AlreadyExists (n : String)
  | CorruptedData
  | IoError
  | CryptoError (e : String)
  | RecoveryNotAvailable
  | InvalidRecoveryCode
  | WeakPassword (msg : String)
  | NotVaultFile (p : String)
deriving DecidableEq

deriving instance DecidableEq for Except

abbrev VaultResult (α : Type) := Except VaultError α

/-- UTF-8 bytes of a password; the vault only ever derives keys from the
raw password bytes (ASCII passwords map one char to one byte). -/
def passwordBytes (password : String) : List Nat :=
  password.data.map Char.toNat

/-- Modelled from the external argon2 crate: Argon2id key derivation, a
deterministic 32-byte function of password and salt (the cost parameters
of crypto.rs are fixed and valid, so the Rust fallible paths are dead). -/
def derive_key (password : String) (salt : List Nat) : List Nat :=
  sha256 (passwordBytes password ++ 0 :: salt)

/-- crypto.rs encrypt_with_key: draw a fresh nonce, AEAD-encrypt, output
nonce‖ciphertext‖tag. The Rust error paths (invalid key size) are dead
because the key type is a fixed 32-byte array. -/
def encrypt_with_key (data key : List Nat) (r : Rng) : List Nat × Rng :=
  let nr := generate_nonce r
  (nr.1 ++ aeadEncrypt key nr.1 data, nr.2)

/-- crypto.rs decrypt_with_key: length check, split off the nonce, AEAD
decrypt; AEAD failure is mapped to InvalidPassword. -/
def decrypt_with_key (encrypted key : List Nat) : VaultResult (List Nat) :=
  if encrypted.length < NONCE_SIZE + TAG_SIZE then .error .CorruptedData
  else
    let nonce := encrypted.take NONCE_SIZE
    let ct := encrypted.drop NONCE_SIZE
    match aeadDecrypt key nonce ct with
    | some pt => .ok pt
    | none => .error .InvalidPassword

/-- crypto.rs encrypt: generate a salt, derive the key, encrypt, output
salt‖nonce‖ciphertext‖tag. -/
def encrypt (data : List Nat) (password : String) (r : Rng) : List Nat × Rng :=
  let sr := generate_salt r
  let key := derive_key password sr.1
  let er := encrypt_with_key data key sr.2
  (sr.1 ++ er.1, er.2)

/-- crypto.rs decrypt: length check, split off the salt, derive the key,
delegate to decrypt_with_key. -/
def decrypt (encrypted : List Nat) (password : String) : VaultResult (List Nat) :=
  if encrypted.length < SALT_SIZE + NONCE_SIZE + TAG_SIZE then .error .CorruptedData
  else
    let salt := encrypted.take SALT_SIZE
    let ct := encrypted.drop SALT_SIZE
    decrypt_with_key ct (derive_key password salt)

/-- The fixed unambiguous alphabet of recovery.rs (CODE_CHARS). -/
def CODE_CHARS : List Char :=
  ['A', 'B', 'C', 'D', 'E', 'F', 'G', 'H', 'J', 'K', 'L', 'M', 'N', 'P', 'Q', 'R',
   'S', 'T', 'U', 'V', 'W', 'X', 'Y', 'Z', '2', '3', '4', '5', '6', '7', '8', '9']

/-- recovery.rs RecoveryCodes: two human-readable code strings. -/
structure RecoveryCodes where
  code1 : String
  code2 : String
deriving DecidableEq

/-- recovery.rs generate_code: three 4-character segments of alphabet
characters joined by a dash; each character consumes one tape cell
(gen_range over the 32-character alphabet modelled as the tape value mod
32). -/
def generate_code (r : Rng) : String × Rng :=
  let c := fun k => CODE_CHARS.getD (r.stream (r.pos + k) % 32) 'A'
  (⟨[c 0, c 1, c 2, c 3, '-', c 4, c 5, c 6, c 7, '-', c 8, c 9, c 10, c 11]⟩,
   ⟨r.stream, r.pos + 12⟩)

/-- recovery.rs RecoveryCodes::generate: two independently drawn codes. -/
def RecoveryCodes.generate (r : Rng) : RecoveryCodes × Rng :=
  let g1 := generate_code r
  let g2 := generate_code g1.2
  (⟨g1.1, g2.1⟩, g2.2)

/-- recovery.rs normalize: uppercase and keep only alphanumerics (the
ASCII fragment of the Unicode predicates, which covers every character of
a generated or ASCII-typed code); named normalize_code because Mathlib
already claims the short name. -/
def normalize_code (code : String) : String :=
  ⟨(code.data.map Char.toUpper).filter isAlphanumChar⟩

/-- recovery.rs combine_codes: SHA-256 of the concatenated normalized
codes (string bytes taken as the character codes, exact for ASCII). -/
def combine_codes (code1 code2 : String) : List Nat :=
  sha256 (((normalize_code code1).data ++ (normalize_code code2).data).map Char.toNat)

def RecoveryCodes.combined_key (c : RecoveryCodes) : List Nat :=
  combine_codes c.code1 c.code2

/-- recovery.rs RecoveryCodes::encrypt_key: AEAD-encrypt the master key
under the combined code key. -/
def RecoveryCodes.encrypt_key (c : RecoveryCodes) (key : List Nat) (r : Rng) :
    List Nat × Rng :=
  encrypt_with_key key c.combined_key r

/-- recovery.rs RecoveryCodes::decrypt_key: decrypt under the combined
code key, mapping AEAD failure to InvalidRecoveryCode, then check the
32-byte key size (the try_into). -/
def RecoveryCodes.decrypt_key (code1 code2 : String) (encrypted : List Nat) :
    VaultResult (List Nat) :=
  match decrypt_with_key encrypted (combine_codes code1 code2) with
  | .ok d => if d.length = KEY_SIZE then .ok d else .error .CorruptedData
  | .error _ => .error .InvalidRecoveryCode

/-- mod.rs MIN_PASSWORD_LENGTH. -/
def MIN_PASSWORD_LENGTH : Nat := 12

/-- mod.rs WEAK_PATTERNS, the fixed deny-list. -/
def WEAK_PATTERNS : List String :=
  ["password", "123456", "qwerty", "admin", "letmein", "welcome",
   "monkey", "dragon", "master", "111111", "abc123", "654321"]

/-- Substring test on character lists (str::contains). -/
def containsSub (pat : List Char) : List Char → Bool
  | [] => pat.isEmpty
  | c :: t => pat.isPrefixOf (c :: t) || containsSub pat t

/-- mod.rs validate_password, with the checks in source order: byte
length, uppercase, lowercase, digit, special, then the deny-list over the
lowercased password. The byte length and the three is_ascii_upper/lower/
digit classes are exact for all strings; the source's special-character
test (the negation of the Unicode char::is_alphanumeric) and its
str::to_lowercase are modelled in their ASCII fragment, so this embedding
agrees with the source exactly on ASCII passwords and the theorems about
it carry an explicit ASCII hypothesis (outside ASCII the model diverges:
it counts a character like ü as special where the source does not). -/
def validate_password (password : String) : VaultResult Unit :=
  if password.utf8ByteSize < MIN_PASSWORD_LENGTH then
    .error (.WeakPassword ("Minimum " ++ toString MIN_PASSWORD_LENGTH
      ++ " characters required"))
  else if !(password.data.any Char.isUpper) then
    .error (.WeakPassword "Must contain at least one uppercase letter")
  else if !(password.data.any Char.isLower) then
    .error (.WeakPassword "Must contain at least one lowercase letter")
  else if !(password.data.any Char.isDigit) then
    .error (.WeakPassword "Must contain at least one digit")
  else if !(password.data.any (fun c => !(isAlphanumChar c))) then
    .error (.WeakPassword "Must contain at least one special character")
  else if WEAK_PATTERNS.any
      (fun pat => containsSub pat.data (password.data.map Char.toLower)) then
    .error (.WeakPassword "Password contains a common weak pattern")
  else .ok ()

/-- The password policy as the specification words it: minimum length,
one character of each of the four classes, and no deny-listed substring
of the lowercased password. Like the embedding of validate_password, the
special-character class and the lowercasing are the ASCII fragments of
the source's Unicode predicates, so this predicate renders the policy
for ASCII passwords (on which ASCII non-alphanumeric and Unicode
non-alphanumeric coincide); the comparison theorem is stated under that
ASCII restriction. -/
def SpecStrongPassword (password : String) : Prop :=
  MIN_PASSWORD_LENGTH ≤ password.utf8ByteSize
  ∧ (∃ c ∈ password.data, c.isUpper)
  ∧ (∃ c ∈ password.data, c.isLower)
  ∧ (∃ c ∈ password.data, c.isDigit)
  ∧ (∃ c ∈ password.data, isAlphanumChar c = false)
  ∧ ∀ pat ∈ WEAK_PATTERNS, containsSub pat.data (password.data.map Char.toLower) = false

instance decSpecStrongPassword (p : String) : Decidable (SpecStrongPassword p) :=
  inferInstanceAs (Decidable (MIN_PASSWORD_LENGTH ≤ p.utf8ByteSize
    ∧ (∃ c ∈ p.data, c.isUpper)
    ∧ (∃ c ∈ p.data, c.isLower)
    ∧ (∃ c ∈ p.data, c.isDigit)
    ∧ (∃ c ∈ p.data, isAlphanumChar c = false)
    ∧ ∀ pat ∈ WEAK_PATTERNS, containsSub pat.data (p.data.map Char.toLower) = false))

/-- storage.rs SecurityLevel. -/
inductive SecurityLevel where
  | Standard
  | Maximum
deriving DecidableEq

/-- storage.rs VaultEntry; the chrono timestamp is out of the model, so
added_at is a plain number (always 0 here). -/
structure VaultEntry where
  id : String
  name : String
  size : Nat
  added_at : Nat
  is_directory : Bool
deriving DecidableEq

/-- storage.rs VaultIndex: the security level and the id-keyed entry map
(the HashMap modelled as an association list). -/
structure VaultIndex where
  security_level : SecurityLevel
  entries : List (String × VaultEntry)
deriving DecidableEq

/-- Serialization tag of a security level (stand-in for serde_json). -/
def serLevel : SecurityLevel → Nat
  | .Standard => 0
  | .Maximum => 1

/-- Length-prefixed string serialization (stand-in for serde_json). -/
def serString (s : String) : List Nat :=
  s.data.length :: s.data.map Char.toNat

def parseString : List Nat → Option (String × List Nat)
  | [] => none
  | n :: rest =>
    if n ≤ rest.length then
      some (⟨(rest.take n).map Char.ofNat⟩, rest.drop n)
    else none

def serEntry (e : VaultEntry) : List Nat :=
  serString e.id ++ serString e.name
    ++ [e.size, e.added_at, if e.is_directory then 1 else 0]

def parseEntry (bs : List Nat) : Option (VaultEntry × List Nat) :=
  match parseString bs with
  | none => none
  | some (id, r1) =>
    match parseString r1 with
    | none => none
    | some (name, r2) =>
      match r2 with
      | size :: added :: dirFlag :: r3 =>
        if dirFlag ≤ 1 then some (⟨id, name, size, added, dirFlag == 1⟩, r3) else none
      | _ => none

def serEntries (es : List (String × VaultEntry)) : List Nat :=
  es.foldr (fun p acc => serString p.1 ++ serEntry p.2 ++ acc) []

def parseEntries : Nat → List Nat → Option (List (String × VaultEntry) × List Nat)
  | 0, rest => some ([], rest)
  | n + 1, rest =>
    match parseString rest with
    | none => none
    | some (k, r1) =>
      match parseEntry r1 with
      | none => none
      | some (e, r2) =>
        match parseEntries n r2 with
        | none => none
        | some (es, r3) => some ((k, e) :: es, r3)

/-- Stand-in for the serde_json encoding of a VaultIndex: level tag, entry
count, then the key/entry pairs. -/
def serIndex (idx : VaultIndex) : List Nat :=
  serLevel idx.security_level :: idx.entries.length :: serEntries idx.entries

def parseIndex (bs : List Nat) : Option VaultIndex :=
  match bs with
  | lv :: cnt :: rest =>
    if lv ≤ 1 then
      match parseEntries cnt rest with
      | some (es, []) => some ⟨if lv = 0 then .Standard else .Maximum, es⟩
      | _ => none
    else none
  | _ => none

/-- Stand-in for the cleartext meta.json: level tag then the raw salt. -/
def serMeta (salt : List Nat) (lv : SecurityLevel) : List Nat := serLevel lv :: salt

def parseMeta : List Nat → Option (List Nat × SecurityLevel)
  | [] => none
  | l :: rest =>
    if l = 0 then some (rest, .Standard)
    else if l = 1 then some (rest, .Maximum)
    else none

/-- The on-disk regions of a vault root: meta.json, index.stlr,
recovery.stlr and the files under data/ (name to content). -/
structure VaultFS where
  meta : Option (List Nat)
  index : Option (List Nat)
  recovery : Option (List Nat)
  data : List (String × List Nat)
deriving DecidableEq

/-- Lookup in a name-keyed association list (both the data directory and
the entry map use it). -/
def assocFind {α : Type} (files : List (String × α)) (name : String) : Option α :=
  (files.find? (fun p => p.1 == name)).map Prod.snd

/-- Update in a name-keyed association list: replace the first binding of
the key or append a new one. -/
def assocSet {α : Type} : List (String × α) → String → α → List (String × α)
  | [], name, c => [(name, c)]
  | p :: rest, name, c =>
    if p.1 = name then (name, c) :: rest else p :: assocSet rest name c

/-- Removal from a name-keyed association list. -/
def assocRemove {α : Type} (files : List (String × α)) (name : String) :
    List (String × α) :=
  files.filter (fun p => !(p.1 == name))

/-- Read a file of the data region. -/
def fsLookup (files : List (String × List Nat)) (name : String) : Option (List Nat) :=
  assocFind files name

/-- Write a file into the data region: overwrite the existing name or
create the file. -/
def fsWrite (files : List (String × List Nat)) (name : String) (c : List Nat) :
    List (String × List Nat) :=
  assocSet files name c

/-- Delete a file of the data region. -/
def fsRemove (files : List (String × List Nat)) (name : String) :
    List (String × List Nat) :=
  assocRemove files name

/-- HashMap::insert on the entry map: replace the key or add it. -/
def insertEntry (es : List (String × VaultEntry)) (id : String) (e : VaultEntry) :
    List (String × VaultEntry) :=
  assocSet es id e

/-- HashMap::remove on the entry map. -/
def removeEntry (es : List (String × VaultEntry)) (id : String) :
    List (String × VaultEntry) :=
  assocRemove es id

/-- storage.rs entry_path: data/<id>.stlr. -/
def blobName (id : String) : String := id ++ ".stlr"

/-- A source path for Vault::add: its basename, its content bytes (for a
directory, the packed archive bytes) and whether it is a directory. -/
structure SrcFile where
  name : String
  content : List Nat
  is_directory : Bool
deriving DecidableEq

/-- storage.rs generate_id: 12 characters over 0-9a-z, one tape cell each. -/
def generate_id (r : Rng) : String × Rng :=
  (⟨(List.range 12).map (fun i =>
      let idx := r.stream (r.pos + i) % 36
      if idx < 10 then Char.ofNat (48 + idx) else Char.ofNat (97 + idx - 10))⟩,
   ⟨r.stream, r.pos + 12⟩)

/-- storage.rs read_meta: read and parse meta.json (missing file is an IO
error, parse failure a CryptoError). -/
def read_meta (fs : VaultFS) : VaultResult (List Nat × SecurityLevel) :=
  match fs.meta with
  | none => .error .IoError
  | some bs =>
    match parseMeta bs with
    | none => .error (.CryptoError "meta")
    | some m => .ok m

/-- storage.rs derive_master_key: read the salt from meta and derive. -/
def derive_master_key (fs : VaultFS) (password : String) : VaultResult (List Nat) :=
  match read_meta fs with
  | .error e => .error e
  | .ok (salt, _) => .ok (derive_key password salt)

/-- storage.rs read_index: read index.stlr, decrypt, deserialize. -/
def read_index (fs : VaultFS) (key : List Nat) : VaultResult VaultIndex :=
  match fs.index with
  | none => .error .IoError
  | some enc =>
    match decrypt_with_key enc key with
    | .error e => .error e
    | .ok bs =>
      match parseIndex bs with
      | none => .error (.CryptoError "index")
      | some idx => .ok idx

/-- storage.rs is_initialized: the meta file exists. -/
def Vault.is_initialized (fs : VaultFS) : Bool := fs.meta.isSome

/-- storage.rs Vault::init, in source order: refuse if initialized,
generate salt, derive key, write meta, write the empty encrypted index,
and for Standard level write the recovery escrow and return the codes. -/
def Vault.init (fs : VaultFS) (password : String) (security_level : SecurityLevel)
    (r : Rng) : (VaultResult (Option RecoveryCodes)) × VaultFS × Rng :=
  if fs.meta.isSome then (.error (.AlreadyExists "Vault"), fs, r)
  else
    let sr := generate_salt r
    let key := derive_key password sr.1
    let fs1 := { fs with meta := some (serMeta sr.1 security_level) }
    let er := encrypt_with_key (serIndex ⟨security_level, []⟩) key sr.2
    let fs2 := { fs1 with index := some er.1 }
    if security_level = .Standard then
      let gc := RecoveryCodes.generate er.2
      let ek := gc.1.encrypt_key key gc.2
      (.ok (some gc.1), { fs2 with recovery := some ek.1 }, ek.2)
    else
      (.ok none, fs2, er.2)

/-- storage.rs Vault::add, in source order: source must exist; derive key,
decrypt index, reject a duplicate name, read the source (packing a
directory), encrypt under a fresh nonce into data/<id>.stlr, insert the
entry, rewrite the index, then delete the source. -/
def Vault.add (fs : VaultFS) (src : Option SrcFile) (password : String) (r : Rng) :
    (VaultResult VaultEntry) × VaultFS × Option SrcFile × Rng :=
  match src with
  | none => (.error (.FileNotFound "src"), fs, src, r)
  | some f =>
    match derive_master_key fs password with
    | .error e => (.error e, fs, src, r)
    | .ok key =>
      match read_index fs key with
      | .error e => (.error e, fs, src, r)
      | .ok index =>
        if index.entries.any (fun p => p.2.name == f.name) then
          (.error (.AlreadyExists f.name), fs, src, r)
        else
          let gid := generate_id r
          let er := encrypt_with_key f.content key gid.2
          let fs1 := { fs with data := fsWrite fs.data (blobName gid.1) er.1 }
          let entry : VaultEntry := ⟨gid.1, f.name, f.content.length, 0, f.is_directory⟩
          let index2 : VaultIndex :=
            ⟨index.security_level, insertEntry index.entries gid.1 entry⟩
          let wr := encrypt_with_key (serIndex index2) key er.2
          ((.ok entry), { fs1 with index := some wr.1 }, none, wr.2)

/-- storage.rs Vault::destroy: find the entry by name, delete its blob if
present, remove it from the map, rewrite the index. -/
def Vault.destroy (fs : VaultFS) (name : String) (password : String) (r : Rng) :
    (VaultResult Unit) × VaultFS × Rng :=
  match derive_master_key fs password with
  | .error e => (.error e, fs, r)
  | .ok key =>
    match read_index fs key with
    | .error e => (.error e, fs, r)
    | .ok index =>
      match index.entries.find? (fun p => p.2.name == name) with
      | none => (.error (.FileNotFound name), fs, r)
      | some p =>
        let fs1 := { fs with data := fsRemove fs.data (blobName p.2.id) }
        let index2 : VaultIndex :=
          ⟨index.security_level, removeEntry index.entries p.2.id⟩
        let wr := encrypt_with_key (serIndex index2) key r
        (.ok (), { fs1 with index := some wr.1 }, wr.2)

/-- The per-entry re-encryption loop of storage.rs Vault::recover: read
each blob, decrypt under the old key, re-encrypt under the new key,
rewrite in place; stops at the first failure, keeping the writes made so
far. -/
def reencrypt_blobs (old_key new_key : List Nat) :
    List (String × VaultEntry) → List (String × List Nat) → Rng →
    (VaultResult Unit) × List (String × List Nat) × Rng
  | [], data, r => (.ok (), data, r)
  | p :: rest, data, r =>
    match fsLookup data (blobName p.2.id) with
    | none => (.error .IoError, data, r)
    | some enc =>
      match decrypt_with_key enc old_key with
      | .error e => (.error e, data, r)
      | .ok d =>
        let er := encrypt_with_key d new_key r
        reencrypt_blobs old_key new_key rest (fsWrite data (blobName p.2.id) er.1) er.2

/-- storage.rs Vault::recover, in source order: read meta, refuse Maximum
level or a missing escrow, decrypt the escrowed old key via the codes,
decrypt the index under it, generate a new salt and key, rewrite meta and
index, re-encrypt every blob, store a fresh escrow and return new codes. -/
def Vault.recover (fs : VaultFS) (code1 code2 : String) (new_password : String)
    (r : Rng) : (VaultResult RecoveryCodes) × VaultFS × Rng :=
  match read_meta fs with
  | .error e => (.error e, fs, r)
  | .ok (_, lv) =>
    if lv = .Maximum then (.error .RecoveryNotAvailable, fs, r)
    else
      match fs.recovery with
      | none => (.error .RecoveryNotAvailable, fs, r)
      | some encKey =>
        match RecoveryCodes.decrypt_key code1 code2 encKey with
        | .error e => (.error e, fs, r)
        | .ok old_key =>
          match read_index fs old_key with
          | .error e => (.error e, fs, r)
          | .ok index =>
            let sr := generate_salt r
            let new_key := derive_key new_password sr.1
            let fs1 := { fs with meta := some (serMeta sr.1 lv) }
            let wr := encrypt_with_key (serIndex index) new_key sr.2
            let fs2 := { fs1 with index := some wr.1 }
            match reencrypt_blobs old_key new_key index.entries fs2.data wr.2 with
            | (.error e, data2, r2) => (.error e, { fs2 with data := data2 }, r2)
            | (.ok _, data2, r2) =>
              let gc := RecoveryCodes.generate r2
              let ek := gc.1.encrypt_key new_key gc.2
              (.ok gc.1, { fs2 with data := data2, recovery := some ek.1 }, ek.2)

/-- commands.rs init flow (init_vault with prompt_new_password): the CLI
validates the password and only then calls Vault::init. -/
def init_command (fs : VaultFS) (password : String) (security_level : SecurityLevel)
    (r : Rng) : (VaultResult (Option RecoveryCodes)) × VaultFS × Rng :=
  match validate_password password with
  | .error e => (.error e, fs, r)
  | .ok _ => Vault.init fs password security_level r

/-- C9's bijection, phrased over the key lists: every data file is the
blob of some entry id, every entry id has its blob file, entry-map keys
agree with the stored entry ids, and both key lists are duplicate-free. -/
def IndexMatchesData (idx : VaultIndex) (fs : VaultFS) : Prop :=
  (∀ f ∈ fs.data.map Prod.fst, ∃ id ∈ idx.entries.map Prod.fst, f = blobName id)
  ∧ (∀ id ∈ idx.entries.map Prod.fst, blobName id ∈ fs.data.map Prod.fst)
  ∧ (∀ p ∈ idx.entries, p.1 = p.2.id)
  ∧ (fs.data.map Prod.fst).Nodup
  ∧ (idx.entries.map Prod.fst).Nodup

/-- The vault state invariant under a password: the master key derived
from the stored meta decrypts the stored index, and the decrypted index
is in bijection with the data directory. -/
def VaultInvariant (fs : VaultFS) (password : String) : Prop :=
  ∃ key idx, derive_master_key fs password = .ok key
    ∧ read_index fs key = .ok idx ∧ IndexMatchesData idx fs

/-- locker.rs VAULT_EXTENSION. -/
def VAULT_EXTENSION : String := "stlr"

/-- Path::extension of a plain file name: the part after the last dot;
none when there is no dot, when the only dot is the leading one, or for
the special name "..". -/
def pathExtension (name : String) : Option String :=
  if name = ".." then none
  else
    let pre := name.data.reverse.takeWhile (fun c => !(c == '.'))
    if pre.length = name.data.length then none
    else if pre.length + 1 = name.data.length ∧ name.data.head? = some '.' then none
    else some ⟨pre.reverse⟩

/-- The file store seen by locker.rs lock_file/unlock_file: plain file
names mapped to contents. -/
structure LockWorld where
  files : List (String × List Nat)
deriving DecidableEq

/-- locker.rs lock_file, in source order: the path must exist; a path
already carrying the reserved extension is refused; otherwise read,
encrypt with an embedded fresh salt, write the sibling <path>.stlr, and
delete the source unless keep_original. -/
def lock_file (w : LockWorld) (path : String) (password : String)
    (keep_original : Bool) (r : Rng) :
    (VaultResult String) × LockWorld × Rng :=
  match assocFind w.files path with
  | none => (.error (.FileNotFound path), w, r)
  | some data =>
    if pathExtension path = some VAULT_EXTENSION then
      (.error (.AlreadyExists path), w, r)
    else
      let er := encrypt data password r
      let vault_path := path ++ "." ++ VAULT_EXTENSION
      let w1 : LockWorld := ⟨assocSet w.files vault_path er.1⟩
      (.ok vault_path,
       if keep_original then w1 else ⟨assocRemove w1.files path⟩, er.2)

theorem fillBytes_length (r : Rng) (n : Nat) : (fillBytes r n).1.length = n := by
  simp [fillBytes]

theorem fillBytes_bytes (r : Rng) (n : Nat) : Bytes (fillBytes r n).1 := by
  intro b hb
  simp [fillBytes] at hb
  obtain ⟨i, -, hi⟩ := hb
  omega

theorem xorBytes_length (a b : List Nat) :
    (xorBytes a b).length = min a.length b.length := by
  simp [xorBytes]

theorem xorBytes_xorBytes (a b : List Nat) (h : a.length ≤ b.length) :
    xorBytes (xorBytes a b) b = a := by
  induction a generalizing b with
  | nil => simp [xorBytes]
  | cons x xs ih =>
    cases b with
    | nil => simp at h
    | cons y ys =>
      simp only [xorBytes, List.zipWith_cons_cons]
      refine congrArg₂ List.cons ?_ (ih ys (by simpa using h))
      show x ^^^ y ^^^ y = x
      rw [Nat.xor_assoc, Nat.xor_self, Nat.xor_zero]

theorem keystream_length (key nonce : List Nat) (n : Nat) :
    (keystream key nonce n).length = n := by
  simp [keystream]

theorem aeadEncrypt_length (key nonce data : List Nat) :
    (aeadEncrypt key nonce data).length = data.length + TAG_SIZE := by
  simp [aeadEncrypt, tagOf, xorBytes_length, keystream_length, TAG_SIZE]

/-- AEAD decryption inverts AEAD encryption under the same key and nonce. -/
theorem aeadDecrypt_aeadEncrypt (key nonce data : List Nat) :
    aeadDecrypt key nonce (aeadEncrypt key nonce data) = some data := by
  have hb : (xorBytes data (keystream key nonce data.length)).length = data.length := by
    rw [xorBytes_length, keystream_length]
    exact Nat.min_self _
  set B := xorBytes data (keystream key nonce data.length) with hB
  have henc : aeadEncrypt key nonce data = B ++ tagOf key nonce B := rfl
  have hlen : (B ++ tagOf key nonce B).length = data.length + TAG_SIZE := by
    rw [List.length_append, hb, tagOf]
    simp [TAG_SIZE]
  rw [henc, aeadDecrypt, if_neg (by omega)]
  have hsub : (B ++ tagOf key nonce B).length - TAG_SIZE = B.length := by
    rw [hlen, hb]
    omega
  simp only [hsub, List.take_left, List.drop_left, eq_self_iff_true, if_true]
  rw [hb, hB]
  exact congrArg some (xorBytes_xorBytes _ _ (by rw [keystream_length]))

theorem generate_nonce_length (r : Rng) : (generate_nonce r).1.length = NONCE_SIZE :=
  fillBytes_length r _

theorem generate_salt_length (r : Rng) : (generate_salt r).1.length = SALT_SIZE :=
  fillBytes_length r _

theorem encrypt_with_key_fst (data key : List Nat) (r : Rng) :
    (encrypt_with_key data key r).1
      = (generate_nonce r).1 ++ aeadEncrypt key (generate_nonce r).1 data := rfl

theorem encrypt_with_key_snd (data key : List Nat) (r : Rng) :
    (encrypt_with_key data key r).2 = ⟨r.stream, r.pos + NONCE_SIZE⟩ := rfl

theorem encrypt_with_key_length (data key : List Nat) (r : Rng) :
    (encrypt_with_key data key r).1.length = NONCE_SIZE + (data.length + TAG_SIZE) := by
  rw [encrypt_with_key_fst, List.length_append, generate_nonce_length, aeadEncrypt_length]

/-- The round-trip of the keyed primitives, used by several claims. -/
theorem decrypt_with_key_encrypt_with_key (data key : List Nat) (r : Rng) :
    decrypt_with_key (encrypt_with_key data key r).1 key = .ok data := by
  rw [encrypt_with_key_fst]
  set N := (generate_nonce r).1 with hN
  have hn : N.length = NONCE_SIZE := fillBytes_length r _
  have hlen : (N ++ aeadEncrypt key N data).length = NONCE_SIZE + (data.length + TAG_SIZE) := by
    rw [List.length_append, hn, aeadEncrypt_length]
  rw [decrypt_with_key, if_neg (by omega)]
  simp only [show NONCE_SIZE = N.length from hn.symm, List.take_left, List.drop_left,
    aeadDecrypt_aeadEncrypt]

theorem encrypt_fst (d : List Nat) (p : String) (r : Rng) :
    (encrypt d p r).1
      = (generate_salt r).1
        ++ (encrypt_with_key d (derive_key p (generate_salt r).1) (generate_salt r).2).1 := rfl

/-- C1: for every byte string d and every password p, decrypting the output
of the salt-embedding convenience encryption with the same password
returns exactly d, the empty string included. -/
theorem encrypt_decrypt_roundtrip (d : List Nat) (p : String) (r : Rng) :
    decrypt (encrypt d p r).1 p = .ok d := by
  rw [encrypt_fst]
  set S := (generate_salt r).1 with hS
  set E := (encrypt_with_key d (derive_key p S) (generate_salt r).2).1 with hE
  have hs : S.length = SALT_SIZE := fillBytes_length r _
  have hew : E.length = NONCE_SIZE + (d.length + TAG_SIZE) := encrypt_with_key_length _ _ _
  have hlen : (S ++ E).length = SALT_SIZE + (NONCE_SIZE + (d.length + TAG_SIZE)) := by
    rw [List.length_append, hs, hew]
  rw [decrypt, if_neg (by omega)]
  simp only [show SALT_SIZE = S.length from hs.symm, List.take_left, List.drop_left]
  rw [hE]
  exact decrypt_with_key_encrypt_with_key _ _ _

theorem decrypt_with_key_short (b key : List Nat) (h : b.length < NONCE_SIZE + TAG_SIZE) :
    decrypt_with_key b key = .error .CorruptedData := by
  rw [decrypt_with_key, if_pos h]

theorem decrypt_with_key_error_invalid (b key : List Nat)
    (h : NONCE_SIZE + TAG_SIZE ≤ b.length) (e : VaultError)
    (he : decrypt_with_key b key = .error e) : e = .InvalidPassword := by
  simp only [decrypt_with_key] at he
  rw [if_neg (by omega)] at he
  split at he
  · exact absurd he (by simp)
  · injection he with h1
    exact h1.symm

theorem decrypt_short (b : List Nat) (p : String)
    (h : b.length < SALT_SIZE + NONCE_SIZE + TAG_SIZE) :
    decrypt b p = .error .CorruptedData := by
  rw [decrypt, if_pos h]

theorem decrypt_error_invalid (b : List Nat) (p : String)
    (h : SALT_SIZE + NONCE_SIZE + TAG_SIZE ≤ b.length) (e : VaultError)
    (he : decrypt b p = .error e) : e = .InvalidPassword := by
  simp only [decrypt] at he
  rw [if_neg (by omega)] at he
  refine decrypt_with_key_error_invalid _ _ ?_ _ he
  rw [List.length_drop]
  simp only [SALT_SIZE, NONCE_SIZE, TAG_SIZE] at h ⊢
  omega

theorem fillBytes_head_ne (s : Nat → Nat) (p1 p2 n : Nat) (hn : 0 < n)
    (h : s p1 % 256 ≠ s p2 % 256) :
    (fillBytes ⟨s, p1⟩ n).1 ≠ (fillBytes ⟨s, p2⟩ n).1 := by
  obtain ⟨m, rfl⟩ := Nat.exists_eq_add_of_lt hn
  simp only [fillBytes, Nat.zero_add, List.range_succ_eq_map, List.map_cons]
  intro heq
  injection heq with h1 h2
  simp only [Nat.add_zero] at h1
  exact h h1

theorem encrypt_snd (d : List Nat) (p : String) (r : Rng) :
    (encrypt d p r).2 = ⟨r.stream, r.pos + SALT_SIZE + NONCE_SIZE⟩ := rfl

theorem encrypt_take_salt (d : List Nat) (p : String) (r : Rng) :
    (encrypt d p r).1.take SALT_SIZE = (generate_salt r).1 := by
  rw [encrypt_fst, show SALT_SIZE = (generate_salt r).1.length from (generate_salt_length r).symm,
    List.take_left]

theorem encrypt_take_nonce (d : List Nat) (p : String) (r : Rng) :
    ((encrypt d p r).1.drop SALT_SIZE).take NONCE_SIZE
      = (generate_nonce (generate_salt r).2).1 := by
  rw [encrypt_fst, show SALT_SIZE = (generate_salt r).1.length from (generate_salt_length r).symm,
    List.drop_left, encrypt_with_key_fst,
    show NONCE_SIZE = (generate_nonce (generate_salt r).2).1.length
      from (generate_nonce_length _).symm,
    List.take_left]

theorem encrypt_with_key_take_nonce (d k : List Nat) (r : Rng) :
    (encrypt_with_key d k r).1.take NONCE_SIZE = (generate_nonce r).1 := by
  rw [encrypt_with_key_fst,
    show NONCE_SIZE = (generate_nonce r).1.length from (generate_nonce_length r).symm,
    List.take_left]

/-- C3: two successive calls to encrypt draw their salts and nonces from
disjoint fresh segments of the random tape, so when the tape holds no
duplicate byte over the consumed positions, the two embedded salts differ
and the two embedded nonces differ; moreover every encrypt_with_key call
reads its nonce as the next NONCE_SIZE fresh tape bytes and advances the
tape past them, so successive calls under the same key never reuse a
nonce. -/
theorem encrypt_fresh_salt_nonce (d1 d2 : List Nat) (p : String) (r : Rng)
    (hinj : ∀ i < 88, ∀ j < 88,
      r.stream (r.pos + i) % 256 = r.stream (r.pos + j) % 256 → i = j) :
    ((encrypt d1 p r).1.take SALT_SIZE ≠ (encrypt d2 p (encrypt d1 p r).2).1.take SALT_SIZE
     ∧ ((encrypt d1 p r).1.drop SALT_SIZE).take NONCE_SIZE
        ≠ ((encrypt d2 p (encrypt d1 p r).2).1.drop SALT_SIZE).take NONCE_SIZE)
    ∧ (∀ (d k : List Nat) (r0 : Rng),
        (encrypt_with_key d k r0).1.take NONCE_SIZE = (fillBytes r0 NONCE_SIZE).1
        ∧ (encrypt_with_key d k r0).2 = ⟨r0.stream, r0.pos + NONCE_SIZE⟩)
    ∧ (∀ (da db k : List Nat),
        (encrypt_with_key da k r).1.take NONCE_SIZE
          ≠ (encrypt_with_key db k (encrypt_with_key da k r).2).1.take NONCE_SIZE) := by
  have h44 : (encrypt d1 p r).2 = ⟨r.stream, r.pos + 44⟩ := by
    rw [encrypt_snd]
    simp [SALT_SIZE, NONCE_SIZE, Nat.add_assoc]
  refine ⟨⟨?_, ?_⟩, ?_, ?_⟩
  · rw [encrypt_take_salt, encrypt_take_salt, h44]
    exact fillBytes_head_ne r.stream r.pos (r.pos + 44) SALT_SIZE (by decide)
      (fun he => absurd (hinj 0 (by decide) 44 (by decide) (by simpa using he)) (by decide))
  · rw [encrypt_take_nonce, encrypt_take_nonce, h44]
    have g1 : (generate_salt r).2 = ⟨r.stream, r.pos + 32⟩ := rfl
    have g2 : (generate_salt ⟨r.stream, r.pos + 44⟩).2 = ⟨r.stream, r.pos + 76⟩ := by
      simp [generate_salt, fillBytes, SALT_SIZE, Nat.add_assoc]
    rw [g1, g2]
    exact fillBytes_head_ne r.stream (r.pos + 32) (r.pos + 76) NONCE_SIZE (by decide)
      (fun he => absurd (hinj 32 (by decide) 76 (by decide) he) (by decide))
  · intro d k r0
    exact ⟨encrypt_with_key_take_nonce d k r0, encrypt_with_key_snd d k r0⟩
  · intro da db k
    rw [encrypt_with_key_take_nonce, encrypt_with_key_take_nonce, encrypt_with_key_snd]
    exact fillBytes_head_ne r.stream r.pos (r.pos + NONCE_SIZE) NONCE_SIZE (by decide)
      (fun he => absurd (hinj 0 (by decide) NONCE_SIZE (by decide) (by simpa using he))
        (by decide))

/-- Witness for C3: a concrete tape with pairwise distinct bytes over the
consumed positions satisfies the freshness hypothesis. -/
theorem encrypt_fresh_salt_nonce_witness :
    ([] : List Nat) = [] ∧
    ((encrypt [] "pw" ⟨fun i => i, 0⟩).1.take SALT_SIZE
      ≠ (encrypt [] "pw" (encrypt [] "pw" ⟨fun i => i, 0⟩).2).1.take SALT_SIZE) :=
  ⟨rfl,
   ((encrypt_fresh_salt_nonce [] [] "pw" ⟨fun i => i, 0⟩
      (by decide)).1).1⟩

/-- C2: decryption fails closed with exactly two failure kinds: a blob
shorter than the well-formed minimum (salt+nonce+tag for decrypt,
nonce+tag for decrypt_with_key) yields CorruptedData, and on a blob of
well-formed length the only possible failure is InvalidPassword (the AEAD
tag mismatch), so wrong password and tampering are indistinguishable. -/
theorem decrypt_failure_taxonomy (b key : List Nat) (p : String) :
    (b.length < NONCE_SIZE + TAG_SIZE → decrypt_with_key b key = .error .CorruptedData)
    ∧ (NONCE_SIZE + TAG_SIZE ≤ b.length →
        ∀ e, decrypt_with_key b key = .error e → e = .InvalidPassword)
    ∧ (b.length < SALT_SIZE + NONCE_SIZE + TAG_SIZE → decrypt b p = .error .CorruptedData)
    ∧ (SALT_SIZE + NONCE_SIZE + TAG_SIZE ≤ b.length →
        ∀ e, decrypt b p = .error e → e = .InvalidPassword) :=
  ⟨decrypt_with_key_short b key, decrypt_with_key_error_invalid b key,
   decrypt_short b p, decrypt_error_invalid b p⟩

/-- Witness for C2: concrete short blobs are rejected as CorruptedData, and
a concrete well-formed-length blob with a bad tag is rejected as
InvalidPassword. -/
theorem decrypt_failure_taxonomy_witness :
    decrypt_with_key (List.replicate 10 0) (List.replicate 32 0) = .error .CorruptedData
    ∧ decrypt (List.replicate 40 0) "pw" = .error .CorruptedData
    ∧ decrypt_with_key (List.replicate 28 0) (List.replicate 32 0) = .error .InvalidPassword :=
  ⟨(decrypt_failure_taxonomy (List.replicate 10 0) (List.replicate 32 0) "pw").1 (by decide),
   (decrypt_failure_taxonomy (List.replicate 40 0) (List.replicate 32 0) "pw").2.2.1 (by decide),
   by decide⟩

theorem encodeBytes_nil : encodeBytes [] = 0 := rfl

theorem encodeBytes_cons (b : Nat) (bs : List Nat) :
    encodeBytes (b :: bs) = (b + 1) + 257 * encodeBytes bs := rfl

theorem encodeBytes_lt (bs : List Nat) (h : Bytes bs) :
    encodeBytes bs < 257 ^ bs.length := by
  induction bs with
  | nil => simp [encodeBytes]
  | cons b bs ih =>
    have hb : b < 256 := h b (by simp)
    have hbs : Bytes bs := fun x hx => h x (List.mem_cons_of_mem _ hx)
    have he := ih hbs
    rw [encodeBytes_cons, List.length_cons, pow_succ]
    have h1 : 257 * encodeBytes bs ≤ 257 * (257 ^ bs.length - 1) :=
      Nat.mul_le_mul_left 257 (by omega)
    have hpos : 1 ≤ 257 ^ bs.length := Nat.one_le_pow _ _ (by omega)
    omega

theorem encodeBytes_inj (a : List Nat) : ∀ (b : List Nat), Bytes a → Bytes b →
    encodeBytes a = encodeBytes b → a = b := by
  induction a with
  | nil =>
    intro b _ _ h
    cases b with
    | nil => rfl
    | cons y ys =>
      rw [encodeBytes_nil, encodeBytes_cons] at h
      omega
  | cons x xs ih =>
    intro b ha hb h
    cases b with
    | nil =>
      rw [encodeBytes_cons, encodeBytes_nil] at h
      omega
    | cons y ys =>
      rw [encodeBytes_cons, encodeBytes_cons] at h
      have hx : x < 256 := ha x (by simp)
      have hy : y < 256 := hb y (by simp)
      have hxs : Bytes xs := fun z hz => ha z (List.mem_cons_of_mem _ hz)
      have hys : Bytes ys := fun z hz => hb z (List.mem_cons_of_mem _ hz)
      have hhead : x = y := by omega
      have htail : encodeBytes xs = encodeBytes ys := by omega
      rw [hhead, ih ys hxs hys htail]

theorem fromDigits_nil : fromDigits [] = 0 := rfl

theorem fromDigits_cons (d : Nat) (ds : List Nat) :
    fromDigits (d :: ds) = d + 256 * fromDigits ds := rfl

theorem fromDigits_replicate_zero (m : Nat) : fromDigits (List.replicate m 0) = 0 := by
  induction m with
  | zero => rfl
  | succ k ih => rw [List.replicate_succ, fromDigits_cons, ih]

theorem fromDigits_append_replicate_zero (ds : List Nat) (m : Nat) :
    fromDigits (ds ++ List.replicate m 0) = fromDigits ds := by
  induction ds with
  | nil => rw [List.nil_append, fromDigits_nil, fromDigits_replicate_zero]
  | cons d ds ih => rw [List.cons_append, fromDigits_cons, fromDigits_cons, ih]

theorem fromDigits_toDigits (fuel : Nat) : ∀ n, n < 256 ^ fuel →
    fromDigits (toDigits fuel n) = n := by
  induction fuel with
  | zero =>
    intro n h
    simp only [pow_zero, Nat.lt_one_iff] at h
    rw [h]
    rfl
  | succ f ih =>
    intro n h
    rw [toDigits]
    by_cases hz : n = 0
    · rw [if_pos hz, hz, fromDigits_nil]
    · rw [if_neg hz, fromDigits_cons]
      have hd : n / 256 < 256 ^ f := by
        rw [pow_succ, Nat.mul_comm] at h
        exact Nat.div_lt_of_lt_mul h
      rw [ih _ hd]
      omega

theorem toDigits_length_le (fuel : Nat) : ∀ n, (toDigits fuel n).length ≤ fuel := by
  induction fuel with
  | zero => intro n; rw [toDigits]; simp
  | succ f ih =>
    intro n
    rw [toDigits]
    by_cases hz : n = 0
    · rw [if_pos hz]; simp
    · rw [if_neg hz, List.length_cons]
      exact Nat.succ_le_succ (ih _)

theorem toDigits_bytes (fuel : Nat) : ∀ n, Bytes (toDigits fuel n) := by
  induction fuel with
  | zero => intro n b hb; rw [toDigits] at hb; simp at hb
  | succ f ih =>
    intro n b hb
    rw [toDigits] at hb
    by_cases hz : n = 0
    · rw [if_pos hz] at hb; simp at hb
    · rw [if_neg hz] at hb
      rcases List.mem_cons.mp hb with h | h
      · rw [h]; exact Nat.mod_lt _ (by omega)
      · exact ih _ b h

theorem sha256_length (bs : List Nat) : (sha256 bs).length = 32 := by
  rw [sha256]
  have := toDigits_length_le 32 (encodeBytes bs)
  simp only [List.length_append, List.length_replicate]
  omega

theorem sha256_bytes (bs : List Nat) : Bytes (sha256 bs) := by
  intro b hb
  rw [sha256] at hb
  rcases List.mem_append.mp hb with h | h
  · exact toDigits_bytes 32 _ b h
  · rw [List.eq_of_mem_replicate h]; omega

theorem pow257_31_lt : 257 ^ 31 < 256 ^ 32 := by norm_num

theorem encodeBytes_lt_pow256 (bs : List Nat) (hb : Bytes bs) (hl : bs.length ≤ 31) :
    encodeBytes bs < 256 ^ 32 := by
  have h1 := encodeBytes_lt bs hb
  have h2 : (257 : Nat) ^ bs.length ≤ 257 ^ 31 := Nat.pow_le_pow_right (by omega) hl
  have := pow257_31_lt
  omega

/-- The modelled digest is injective on byte strings of at most 31 bytes
(all recovery-code material is well below this bound). -/
theorem sha256_inj (a b : List Nat) (ha : Bytes a) (hb : Bytes b)
    (la : a.length ≤ 31) (lb : b.length ≤ 31) (h : sha256 a = sha256 b) : a = b := by
  have h1 : encodeBytes a < 256 ^ 32 := encodeBytes_lt_pow256 a ha la
  have h2 : encodeBytes b < 256 ^ 32 := encodeBytes_lt_pow256 b hb lb
  have hf := congrArg fromDigits h
  rw [sha256, sha256] at hf
  rw [fromDigits_append_replicate_zero, fromDigits_append_replicate_zero,
    fromDigits_toDigits 32 _ h1, fromDigits_toDigits 32 _ h2] at hf
  exact encodeBytes_inj a b ha hb hf

/-- C4: for codes generated by RecoveryCodes::generate and any 32-byte
master key, decrypt_key applied to the two generated codes and the
encrypt_key escrow blob returns the key unchanged. -/
theorem recovery_roundtrip (rg re : Rng) (k : List Nat) (hk : k.length = KEY_SIZE) :
    RecoveryCodes.decrypt_key (RecoveryCodes.generate rg).1.code1
      (RecoveryCodes.generate rg).1.code2
      (((RecoveryCodes.generate rg).1.encrypt_key k re).1) = .ok k := by
  rw [RecoveryCodes.decrypt_key]
  rw [show combine_codes (RecoveryCodes.generate rg).1.code1
      (RecoveryCodes.generate rg).1.code2
      = (RecoveryCodes.generate rg).1.combined_key from rfl]
  rw [RecoveryCodes.encrypt_key, decrypt_with_key_encrypt_with_key]
  show (if k.length = KEY_SIZE then (Except.ok k : VaultResult (List Nat))
        else Except.error VaultError.CorruptedData) = Except.ok k
  rw [if_pos hk]

/-- Witness for C4: the round-trip evaluated at a concrete tape and key. -/
theorem recovery_roundtrip_witness :
    RecoveryCodes.decrypt_key (RecoveryCodes.generate ⟨fun _ => 0, 0⟩).1.code1
      (RecoveryCodes.generate ⟨fun _ => 0, 0⟩).1.code2
      (((RecoveryCodes.generate ⟨fun _ => 0, 0⟩).1.encrypt_key
        (List.replicate 32 7) ⟨fun _ => 0, 0⟩).1) = .ok (List.replicate 32 7) :=
  recovery_roundtrip ⟨fun _ => 0, 0⟩ ⟨fun _ => 0, 0⟩ (List.replicate 32 7) (by decide)

theorem char_toNat_injective : Function.Injective Char.toNat := by
  intro a b h
  exact Char.eq_of_val_eq (UInt32.toNat.inj h)

theorem string_data_inj (s t : String) (h : s.data = t.data) : s = t := by
  cases s
  cases t
  exact congrArg String.mk h

theorem toUpper_toNat_lt (c : Char) (h : c.toNat < 128) : c.toUpper.toNat < 128 := by
  simp only [Char.toUpper]
  split
  · next hc =>
    have hv : (c.toNat - 32).isValidChar := Or.inl (by omega)
    rw [Char.ofNat, dif_pos hv]
    show c.toNat - 32 < 128
    omega
  · exact h

theorem bytes_append (a b : List Nat) (ha : Bytes a) (hb : Bytes b) : Bytes (a ++ b) := by
  intro x hx
  rcases List.mem_append.mp hx with h | h
  · exact ha x h
  · exact hb x h

theorem keystream_bytes (key nonce : List Nat) (n : Nat) : Bytes (keystream key nonce n) := by
  intro b hb
  simp [keystream] at hb
  obtain ⟨i, -, hi⟩ := hb
  omega

theorem xorBytes_bytes (a : List Nat) : ∀ (b : List Nat), Bytes a → Bytes b →
    Bytes (xorBytes a b) := by
  induction a with
  | nil => intro b _ _ x hx; simp [xorBytes] at hx
  | cons x xs ih =>
    intro b ha hb z hz
    cases b with
    | nil => simp [xorBytes] at hz
    | cons y ys =>
      simp only [xorBytes, List.zipWith_cons_cons, List.mem_cons] at hz
      rcases hz with rfl | hz
      · have hx : x < 256 := ha x (by simp)
        have hy : y < 256 := hb y (by simp)
        have h8 : (2 : Nat) ^ 8 = 256 := by norm_num
        have hx8 : x < 2 ^ 8 := by rw [h8]; exact hx
        have hy8 : y < 2 ^ 8 := by rw [h8]; exact hy
        have hxy := Nat.xor_lt_two_pow hx8 hy8
        rw [h8] at hxy
        exact hxy
      · exact ih ys (fun w hw => ha w (List.mem_cons_of_mem _ hw))
          (fun w hw => hb w (List.mem_cons_of_mem _ hw)) z hz

theorem tagOf_length (key nonce ct : List Nat) : (tagOf key nonce ct).length = TAG_SIZE := by
  simp [tagOf, TAG_SIZE]

/-- The modelled tag determines the key given the nonce and ciphertext:
two equal-length byte keys producing the same tag are equal. -/
theorem tagOf_inj_key (k1 k2 nonce body : List Nat)
    (h1 : Bytes k1) (h2 : Bytes k2) (hn : Bytes nonce) (hb : Bytes body)
    (hl : k1.length = k2.length)
    (h : tagOf k1 nonce body = tagOf k2 nonce body) : k1 = k2 := by
  rw [tagOf, tagOf] at h
  injection h with hhead _
  have hba : Bytes (k1 ++ nonce ++ body) := bytes_append _ _ (bytes_append _ _ h1 hn) hb
  have hbb : Bytes (k2 ++ nonce ++ body) := bytes_append _ _ (bytes_append _ _ h2 hn) hb
  have heq := encodeBytes_inj _ _ hba hbb hhead
  have hlen2 : (k1 ++ nonce).length = (k2 ++ nonce).length := by
    rw [List.length_append, List.length_append, hl]
  exact (List.append_inj (List.append_inj heq hlen2).1 hl).1

theorem normalize_code_data (code : String) :
    (normalize_code code).data = (code.data.map Char.toUpper).filter isAlphanumChar := rfl

theorem normalize_code_length_le (s : String) :
    (normalize_code s).data.length ≤ s.data.length := by
  rw [normalize_code_data]
  calc ((s.data.map Char.toUpper).filter isAlphanumChar).length
      ≤ (s.data.map Char.toUpper).length := List.length_filter_le _ _
    _ = s.data.length := List.length_map _ _

theorem normalize_code_chars (s : String) (h : ∀ ch ∈ s.data, ch.toNat < 128) :
    ∀ ch ∈ (normalize_code s).data, ch.toNat < 128 := by
  intro ch hch
  rw [normalize_code_data] at hch
  obtain ⟨c0, hc0, rfl⟩ := List.mem_map.mp (List.mem_of_mem_filter hch)
  exact toUpper_toNat_lt c0 (h c0 hc0)

theorem codeChar_mem (r : Rng) (k : Nat) :
    CODE_CHARS.getD (r.stream (r.pos + k) % 32) 'A' ∈ CODE_CHARS := by
  have hlt : r.stream (r.pos + k) % 32 < CODE_CHARS.length := by
    have h32 : r.stream (r.pos + k) % 32 < 32 := Nat.mod_lt _ (by omega)
    have : CODE_CHARS.length = 32 := by decide
    omega
  rw [List.getD_eq_getElem CODE_CHARS 'A' hlt]
  exact List.getElem_mem hlt

theorem generate_code_data_length (r : Rng) : ((generate_code r).1).data.length = 14 := rfl

theorem generate_code_chars (r : Rng) :
    ∀ ch ∈ ((generate_code r).1).data, ch.toNat < 128 := by
  have hcc : ∀ ch ∈ CODE_CHARS, ch.toNat < 128 := by decide
  intro ch hch
  simp only [generate_code, List.mem_cons, List.not_mem_nil, or_false] at hch
  rcases hch with rfl|rfl|rfl|rfl|rfl|rfl|rfl|rfl|rfl|rfl|rfl|rfl|rfl|rfl
  all_goals first
    | exact hcc _ (codeChar_mem r _)
    | decide

theorem generate_code1 (r : Rng) :
    (RecoveryCodes.generate r).1.code1 = (generate_code r).1 := rfl

theorem generate_code2 (r : Rng) :
    (RecoveryCodes.generate r).1.code2 = (generate_code ⟨r.stream, r.pos + 12⟩).1 := rfl

/-- C5 (amended): with one code left as generated and the other replaced
by any ASCII code of at most 14 characters whose normalized form differs
from the generated one — in particular any single-character mutation that
changes the code's uppercase alphanumeric content — decrypt_key on the
escrow blob fails with InvalidRecoveryCode. -/
theorem decrypt_key_mutated_code_fails (rg re : Rng) (k : List Nat) (c1 c2 : String)
    (hkb : Bytes k) (hk : k.length = KEY_SIZE)
    (ha1 : ∀ ch ∈ c1.data, ch.toNat < 128) (ha2 : ∀ ch ∈ c2.data, ch.toNat < 128)
    (hl1 : c1.data.length ≤ 14) (hl2 : c2.data.length ≤ 14)
    (hmut : (c2 = (RecoveryCodes.generate rg).1.code2
              ∧ normalize_code c1 ≠ normalize_code (RecoveryCodes.generate rg).1.code1)
          ∨ (c1 = (RecoveryCodes.generate rg).1.code1
              ∧ normalize_code c2 ≠ normalize_code (RecoveryCodes.generate rg).1.code2)) :
    RecoveryCodes.decrypt_key c1 c2 (((RecoveryCodes.generate rg).1.encrypt_key k re).1)
      = .error .InvalidRecoveryCode := by
  have hg1a : ∀ ch ∈ (RecoveryCodes.generate rg).1.code1.data, ch.toNat < 128 := by
    rw [generate_code1]
    exact generate_code_chars rg
  have hg2a : ∀ ch ∈ (RecoveryCodes.generate rg).1.code2.data, ch.toNat < 128 := by
    rw [generate_code2]
    exact generate_code_chars _
  have hg1l : (RecoveryCodes.generate rg).1.code1.data.length = 14 := by
    rw [generate_code1]
    exact generate_code_data_length rg
  have hg2l : (RecoveryCodes.generate rg).1.code2.data.length = 14 := by
    rw [generate_code2]
    exact generate_code_data_length _
  have hckb : ∀ (s t : String), Bytes (((normalize_code s).data
      ++ (normalize_code t).data).map Char.toNat) → True := fun _ _ _ => trivial
  have hbytes : ∀ (s t : String), (∀ ch ∈ s.data, ch.toNat < 128) →
      (∀ ch ∈ t.data, ch.toNat < 128) →
      Bytes (((normalize_code s).data ++ (normalize_code t).data).map Char.toNat) := by
    intro s t hs ht b hb
    obtain ⟨ch, hch, rfl⟩ := List.mem_map.mp hb
    rcases List.mem_append.mp hch with h | h
    · have := normalize_code_chars s hs ch h
      omega
    · have := normalize_code_chars t ht ch h
      omega
  have hlen : ∀ (s t : String), s.data.length ≤ 14 → t.data.length ≤ 14 →
      (((normalize_code s).data ++ (normalize_code t).data).map Char.toNat).length ≤ 31 := by
    intro s t hs ht
    rw [List.length_map, List.length_append]
    have h1 := normalize_code_length_le s
    have h2 := normalize_code_length_le t
    omega
  have hne : combine_codes c1 c2
      ≠ (RecoveryCodes.generate rg).1.combined_key := by
    intro he
    rw [RecoveryCodes.combined_key, combine_codes, combine_codes] at he
    have hinputs := sha256_inj _ _ (hbytes c1 c2 ha1 ha2)
      (hbytes _ _ hg1a hg2a) (hlen c1 c2 hl1 hl2)
      (hlen _ _ (le_of_eq hg1l) (le_of_eq hg2l)) he
    have hlists := (List.map_injective_iff.mpr char_toNat_injective) hinputs
    rcases hmut with ⟨hc2, hne1⟩ | ⟨hc1, hne2⟩
    · rw [hc2] at hlists
      exact hne1 (string_data_inj _ _ (List.append_cancel_right hlists))
    · rw [hc1] at hlists
      exact hne2 (string_data_inj _ _ (List.append_cancel_left hlists))
  -- evaluate the decryption with the wrong combined key
  rw [RecoveryCodes.decrypt_key, RecoveryCodes.encrypt_key, encrypt_with_key_fst]
  set ck := (RecoveryCodes.generate rg).1.combined_key with hckdef
  set ckx := combine_codes c1 c2 with hckxdef
  set N := (generate_nonce re).1 with hNdef
  have hN : N.length = NONCE_SIZE := generate_nonce_length re
  have hNb : Bytes N := fillBytes_bytes re _
  have hkey1 : ck.length = 32 := sha256_length _
  have hkeyx : ckx.length = 32 := sha256_length _
  have hkey1b : Bytes ck := sha256_bytes _
  have hkeyxb : Bytes ckx := sha256_bytes _
  have hB : (xorBytes k (keystream ck N k.length)).length = k.length := by
    rw [xorBytes_length, keystream_length]
    exact Nat.min_self _
  set B := xorBytes k (keystream ck N k.length) with hBdef
  have hBb : Bytes B := xorBytes_bytes k _ hkb (keystream_bytes _ _ _)
  have henc : aeadEncrypt ck N k = B ++ tagOf ck N B := rfl
  rw [henc]
  have hlenall : (N ++ (B ++ tagOf ck N B)).length
      = NONCE_SIZE + (k.length + TAG_SIZE) := by
    rw [List.length_append, List.length_append, hN, hB, tagOf_length]
  rw [decrypt_with_key]
  rw [if_neg (by rw [hlenall]; simp [NONCE_SIZE, TAG_SIZE, KEY_SIZE] at hk ⊢; omega)]
  simp only [show NONCE_SIZE = N.length from hN.symm, List.take_left, List.drop_left]
  rw [aeadDecrypt]
  have hct : (B ++ tagOf ck N B).length = k.length + TAG_SIZE := by
    rw [List.length_append, hB, tagOf_length]
  rw [if_neg (by rw [hct]; omega)]
  have hsub : (B ++ tagOf ck N B).length - TAG_SIZE = B.length := by
    rw [hct, hB]
    omega
  simp only [hsub, List.take_left, List.drop_left]
  rw [if_neg ?tagne]
  case tagne =>
    intro htag
    exact hne (tagOf_inj_key ckx ck N B hkeyxb hkey1b hNb hBb
      (by rw [hkeyx, hkey1]) htag.symm)

/-- C5 counterexample: for the codes generated from the all-zero tape,
mutating the first separator of code1 from a dash to a period is a
single-character mutation, yet decrypt_key still succeeds, because
normalization strips punctuation. -/
theorem decrypt_key_mutation_counterexample :
    (RecoveryCodes.generate ⟨fun _ => 0, 0⟩).1.code1 = "AAAA-AAAA-AAAA"
    ∧ ("AAAA.AAAA-AAAA" : String).data = (("AAAA-AAAA-AAAA" : String).data.set 4 '.')
    ∧ ("AAAA.AAAA-AAAA" : String) ≠ "AAAA-AAAA-AAAA"
    ∧ RecoveryCodes.decrypt_key "AAAA.AAAA-AAAA"
        (RecoveryCodes.generate ⟨fun _ => 0, 0⟩).1.code2
        (((RecoveryCodes.generate ⟨fun _ => 0, 0⟩).1.encrypt_key
          (List.replicate 32 7) ⟨fun _ => 0, 0⟩).1) = .ok (List.replicate 32 7) := by
  refine ⟨by decide, by decide, by decide, by decide⟩

/-- Witness for the amended C5: a one-letter mutation of the generated
code1 ('A' to 'B' at position 0) is rejected with InvalidRecoveryCode. -/
theorem decrypt_key_mutated_code_fails_witness :
    RecoveryCodes.decrypt_key "BAAA-AAAA-AAAA"
      (RecoveryCodes.generate ⟨fun _ => 0, 0⟩).1.code2
      (((RecoveryCodes.generate ⟨fun _ => 0, 0⟩).1.encrypt_key
        (List.replicate 32 7) ⟨fun _ => 0, 0⟩).1)
      = .error .InvalidRecoveryCode :=
  decrypt_key_mutated_code_fails ⟨fun _ => 0, 0⟩ ⟨fun _ => 0, 0⟩
    (List.replicate 32 7) "BAAA-AAAA-AAAA"
    (RecoveryCodes.generate ⟨fun _ => 0, 0⟩).1.code2
    (by decide) (by decide) (by decide) (by decide) (by decide) (by decide)
    (Or.inl ⟨rfl, by decide⟩)

theorem validate_password_error_weak (p : String) (e : VaultError)
    (h : validate_password p = .error e) : ∃ msg, e = .WeakPassword msg := by
  rw [validate_password] at h
  split_ifs at h <;> (injection h with h1) <;> exact ⟨_, h1.symm⟩

/-- C7: on ASCII passwords — the fragment where the embedded character
classes and lowercasing agree with the source's Unicode
is_alphanumeric and to_lowercase — validate_password accepts exactly
the passwords satisfying the specification policy, and every rejection
is a WeakPassword error. -/
theorem validate_password_spec (p : String)
    (_hascii : ∀ c ∈ p.data, c.toNat < 128) :
    (validate_password p = .ok () ↔ SpecStrongPassword p)
    ∧ (∀ e, validate_password p = .error e → ∃ msg, e = .WeakPassword msg) := by
  refine ⟨?_, fun e he => validate_password_error_weak p e he⟩
  rw [validate_password, SpecStrongPassword]
  split_ifs with h1 h2 h3 h4 h5 h6
  · simp only [reduceCtorEq, false_iff]
    intro hs
    omega
  · simp only [Bool.not_eq_true'] at h2
    rw [List.any_eq_false] at h2
    simp only [reduceCtorEq, false_iff]
    intro hs
    rcases hs.2.1 with ⟨c, hc, hcu⟩
    exact h2 c hc hcu
  · simp only [Bool.not_eq_true'] at h3
    rw [List.any_eq_false] at h3
    simp only [reduceCtorEq, false_iff]
    intro hs
    rcases hs.2.2.1 with ⟨c, hc, hcu⟩
    exact h3 c hc hcu
  · simp only [Bool.not_eq_true'] at h4
    rw [List.any_eq_false] at h4
    simp only [reduceCtorEq, false_iff]
    intro hs
    rcases hs.2.2.2.1 with ⟨c, hc, hcu⟩
    exact h4 c hc hcu
  · simp only [Bool.not_eq_true'] at h5
    rw [List.any_eq_false] at h5
    simp only [reduceCtorEq, false_iff]
    intro hs
    rcases hs.2.2.2.2.1 with ⟨c, hc, hcu⟩
    exact h5 c hc (by simp [hcu])
  · rw [List.any_eq_true] at h6
    simp only [reduceCtorEq, false_iff]
    intro hs
    rcases h6 with ⟨pat, hpat, hc⟩
    have hfalse := hs.2.2.2.2.2 pat hpat
    rw [hc] at hfalse
    simp at hfalse
  · simp only [true_iff]
    have h2' : p.data.any Char.isUpper = true := by simpa using h2
    have h3' : p.data.any Char.isLower = true := by simpa using h3
    have h4' : p.data.any Char.isDigit = true := by simpa using h4
    have h5' : (p.data.any fun c => !(isAlphanumChar c)) = true := by simpa using h5
    have h6' : (WEAK_PATTERNS.any
        (fun pat => containsSub pat.data (p.data.map Char.toLower))) = false := by
      simpa using h6
    rw [List.any_eq_false] at h6'
    obtain ⟨c5, hc5, hcu5⟩ := List.any_eq_true.mp h5'
    refine ⟨by omega, List.any_eq_true.mp h2', List.any_eq_true.mp h3',
      List.any_eq_true.mp h4', ⟨c5, hc5, by simpa using hcu5⟩, ?_⟩
    intro pat hpat
    simpa using h6' pat hpat

/-- Witness for C7: a concrete ASCII strong password is accepted, and a
concrete ASCII short password is rejected with a WeakPassword message. -/
theorem validate_password_spec_witness :
    validate_password "Tr3s-S3cur3!Passw0rd" = .ok ()
    ∧ (∃ msg, (VaultError.WeakPassword "Minimum 12 characters required")
        = VaultError.WeakPassword msg) :=
  ⟨(validate_password_spec "Tr3s-S3cur3!Passw0rd" (by decide)).1.mpr (by decide),
   (validate_password_spec "abc" (by decide)).2
     (.WeakPassword "Minimum 12 characters required") (by decide)⟩

theorem char_ofNat_toNat (c : Char) : Char.ofNat c.toNat = c := by
  have hv : c.toNat.isValidChar := c.valid
  rw [Char.ofNat, dif_pos hv]
  apply Char.eq_of_val_eq
  apply UInt32.toNat.inj
  rfl

theorem map_ofNat_toNat (l : List Char) : (l.map Char.toNat).map Char.ofNat = l := by
  rw [List.map_map]
  have : l.map (Char.ofNat ∘ Char.toNat) = l.map id := by
    apply List.map_congr_left
    intro c _
    exact char_ofNat_toNat c
  rw [this, List.map_id]

theorem parseString_ser (s : String) (t : List Nat) :
    parseString (serString s ++ t) = some (s, t) := by
  have hshape : serString s ++ t = s.data.length :: (s.data.map Char.toNat ++ t) := rfl
  rw [hshape]
  rw [parseString]
  rw [if_pos (by rw [List.length_append, List.length_map]; omega)]
  have htake : (s.data.map Char.toNat ++ t).take s.data.length = s.data.map Char.toNat := by
    rw [show s.data.length = (s.data.map Char.toNat).length from (List.length_map _ _).symm,
      List.take_left]
  have hdrop : (s.data.map Char.toNat ++ t).drop s.data.length = t := by
    rw [show s.data.length = (s.data.map Char.toNat).length from (List.length_map _ _).symm,
      List.drop_left]
  rw [htake, hdrop, map_ofNat_toNat]

theorem parseEntry_ser (e : VaultEntry) (t : List Nat) :
    parseEntry (serEntry e ++ t) = some (e, t) := by
  rcases e with ⟨id, name, size, added, dir⟩
  rw [parseEntry, serEntry]
  simp only [List.append_assoc, List.cons_append, List.nil_append]
  rw [parseString_ser]
  simp only
  rw [parseString_ser]
  simp only
  cases dir <;> simp

theorem parseEntries_ser (es : List (String × VaultEntry)) (t : List Nat) :
    parseEntries es.length (serEntries es ++ t) = some (es, t) := by
  induction es generalizing t with
  | nil => rw [serEntries]; rfl
  | cons p rest ih =>
    have hshape : serEntries (p :: rest) ++ t
        = serString p.1 ++ (serEntry p.2 ++ (serEntries rest ++ t)) := by
      rw [serEntries, List.foldr_cons]
      change (serString p.1 ++ serEntry p.2 ++ serEntries rest) ++ t = _
      rw [List.append_assoc, List.append_assoc]
    rw [List.length_cons, hshape, parseEntries, parseString_ser]
    simp only
    rw [parseEntry_ser]
    simp only
    rw [ih t]

theorem parseIndex_ser (idx : VaultIndex) : parseIndex (serIndex idx) = some idx := by
  rcases idx with ⟨lv, es⟩
  have hr := parseEntries_ser es []
  rw [List.append_nil] at hr
  cases lv
  · simp only [serIndex, parseIndex, serLevel]
    rw [if_pos (by omega), hr]
    simp
  · simp only [serIndex, parseIndex, serLevel]
    rw [if_pos (by omega), hr]
    simp

theorem parseMeta_ser (salt : List Nat) (lv : SecurityLevel) :
    parseMeta (serMeta salt lv) = some (salt, lv) := by
  cases lv <;> rfl

theorem read_index_write (fs : VaultFS) (idx : VaultIndex) (key : List Nat) (r : Rng)
    (h : fs.index = some (encrypt_with_key (serIndex idx) key r).1) :
    read_index fs key = .ok idx := by
  simp only [read_index, h, decrypt_with_key_encrypt_with_key, parseIndex_ser]

theorem blobName_inj (a b : String) (h : blobName a = blobName b) : a = b := by
  rw [blobName, blobName] at h
  have hd := congrArg String.data h
  rw [String.data_append, String.data_append] at hd
  exact string_data_inj a b (List.append_cancel_right hd)

theorem mem_assocSet_keys {α : Type} (d : List (String × α)) (n : String) (c : α)
    (k : String) :
    k ∈ (assocSet d n c).map Prod.fst ↔ k ∈ d.map Prod.fst ∨ k = n := by
  induction d with
  | nil => simp [assocSet]
  | cons p rest ih =>
    by_cases hp : p.1 = n
    · rw [assocSet, if_pos hp]
      simp only [List.map_cons, List.mem_cons, hp]
      tauto
    · rw [assocSet, if_neg hp]
      simp only [List.map_cons, List.mem_cons, ih]
      tauto

theorem assocSet_keys_nodup {α : Type} (d : List (String × α)) (n : String) (c : α)
    (h : (d.map Prod.fst).Nodup) : ((assocSet d n c).map Prod.fst).Nodup := by
  induction d with
  | nil => simp [assocSet]
  | cons p rest ih =>
    rw [List.map_cons, List.nodup_cons] at h
    by_cases hp : p.1 = n
    · rw [assocSet, if_pos hp]
      simp only [List.map_cons, List.nodup_cons]
      exact ⟨by rw [← hp]; exact h.1, h.2⟩
    · rw [assocSet, if_neg hp]
      simp only [List.map_cons, List.nodup_cons]
      refine ⟨?_, ih h.2⟩
      intro hmem
      rcases (mem_assocSet_keys rest n c p.1).mp hmem with hin | heq
      · exact h.1 hin
      · exact hp heq

theorem mem_assocSet_elim {α : Type} (d : List (String × α)) (n : String) (c : α)
    (q : String × α) (h : q ∈ assocSet d n c) : q = (n, c) ∨ q ∈ d := by
  induction d with
  | nil =>
    rw [assocSet] at h
    simp at h
    exact Or.inl h
  | cons p rest ih =>
    by_cases hp : p.1 = n
    · rw [assocSet, if_pos hp] at h
      rcases List.mem_cons.mp h with h1 | h1
      · exact Or.inl h1
      · exact Or.inr (List.mem_cons_of_mem _ h1)
    · rw [assocSet, if_neg hp] at h
      rcases List.mem_cons.mp h with h1 | h1
      · exact Or.inr (h1 ▸ List.mem_cons_self _ _)
      · rcases ih h1 with h2 | h2
        · exact Or.inl h2
        · exact Or.inr (List.mem_cons_of_mem _ h2)

theorem assocRemove_keys {α : Type} (d : List (String × α)) (n : String) :
    (assocRemove d n).map Prod.fst = (d.map Prod.fst).filter (fun k => !(k == n)) := by
  induction d with
  | nil => rfl
  | cons p rest ih =>
    rw [assocRemove, List.filter_cons]
    by_cases hp : p.1 = n
    · have : (!(p.1 == n)) = false := by simp [hp]
      rw [this]
      simp only [List.map_cons, List.filter_cons]
      rw [show (!(p.1 == n)) = false from this]
      simpa [assocRemove] using ih
    · have : (!(p.1 == n)) = true := by simp [hp]
      rw [this]
      simp only [List.map_cons, List.filter_cons]
      rw [show (!(p.1 == n)) = true from this]
      simp only [List.map_cons]
      rw [← ih]
      rfl

theorem mem_assocRemove_keys {α : Type} (d : List (String × α)) (n : String)
    (k : String) :
    k ∈ (assocRemove d n).map Prod.fst ↔ k ∈ d.map Prod.fst ∧ k ≠ n := by
  rw [assocRemove_keys, List.mem_filter]
  simp

theorem assocRemove_keys_nodup {α : Type} (d : List (String × α)) (n : String)
    (h : (d.map Prod.fst).Nodup) : ((assocRemove d n).map Prod.fst).Nodup := by
  rw [assocRemove_keys]
  exact h.filter _

theorem mem_assocRemove_elim {α : Type} (d : List (String × α)) (n : String)
    (q : String × α) (h : q ∈ assocRemove d n) : q ∈ d :=
  (List.mem_filter.mp h).1

theorem assocFind_mem_keys {α : Type} (d : List (String × α)) (f : String) (c : α)
    (h : assocFind d f = some c) : f ∈ d.map Prod.fst := by
  rw [assocFind] at h
  rcases Option.map_eq_some'.mp h with ⟨p, hp, -⟩
  have hmem := List.mem_of_find?_eq_some hp
  have hbeq := List.find?_some hp
  simp only [beq_iff_eq] at hbeq
  rw [← hbeq]
  exact List.mem_map_of_mem _ hmem

theorem mem_keys_assocFind {α : Type} (d : List (String × α)) (f : String)
    (h : f ∈ d.map Prod.fst) : ∃ c, assocFind d f = some c := by
  rw [assocFind]
  rcases List.mem_map.mp h with ⟨p, hp, hf⟩
  have : (List.find? (fun q => q.1 == f) d).isSome = true := by
    rw [List.find?_isSome]
    exact ⟨p, hp, by simp [hf]⟩
  rcases Option.isSome_iff_exists.mp this with ⟨q, hq⟩
  exact ⟨q.2, by rw [hq]; rfl⟩

/-- C8: adding a source whose basename equals an existing entry name
fails with AlreadyExists and changes nothing: the vault state, the source
file and the random tape all come back untouched (no blob written, no
index rewrite, no deletion). -/
theorem add_duplicate_name_rejected (fs : VaultFS) (f : SrcFile) (password : String)
    (r : Rng) (key : List Nat) (index : VaultIndex)
    (hkey : derive_master_key fs password = .ok key)
    (hidx : read_index fs key = .ok index)
    (hdup : (index.entries.any fun p => p.2.name == f.name) = true) :
    Vault.add fs (some f) password r
      = (.error (.AlreadyExists f.name), fs, some f, r) := by
  simp only [Vault.add, hkey, hidx, hdup, if_true]

/-- Witness for C8: a concrete one-entry vault rejects a second source
with the same basename. -/
theorem add_duplicate_name_rejected_witness :
    Vault.add
      ⟨some (serMeta (List.replicate 32 0) .Standard),
       some (encrypt_with_key
         (serIndex ⟨.Standard, [("id0", ⟨"id0", "a.txt", 3, 0, false⟩)]⟩)
         (derive_key "pw" (List.replicate 32 0)) ⟨fun _ => 0, 0⟩).1,
       none, []⟩
      (some ⟨"a.txt", [1, 2, 3], false⟩) "pw" ⟨fun _ => 1, 5⟩
      = (.error (.AlreadyExists "a.txt"),
         ⟨some (serMeta (List.replicate 32 0) .Standard),
          some (encrypt_with_key
            (serIndex ⟨.Standard, [("id0", ⟨"id0", "a.txt", 3, 0, false⟩)]⟩)
            (derive_key "pw" (List.replicate 32 0)) ⟨fun _ => 0, 0⟩).1,
          none, []⟩,
         some ⟨"a.txt", [1, 2, 3], false⟩, ⟨fun _ => 1, 5⟩) :=
  add_duplicate_name_rejected _ ⟨"a.txt", [1, 2, 3], false⟩ "pw" _
    (derive_key "pw" (List.replicate 32 0))
    ⟨.Standard, [("id0", ⟨"id0", "a.txt", 3, 0, false⟩)]⟩
    (by decide)
    (read_index_write _ _ _ ⟨fun _ => 0, 0⟩ rfl)
    (by decide)

/-- C6 counterexample: "Password123!" is rejected by the password policy,
yet Vault::init called directly with it succeeds — it derives a key,
writes meta, index and the recovery escrow, and returns recovery codes.
The strength check lives in the CLI wrapper, not in Vault::init. -/
theorem init_no_validation_counterexample :
    validate_password "Password123!"
      = .error (.WeakPassword "Password contains a common weak pattern")
    ∧ (Vault.init ⟨none, none, none, []⟩ "Password123!" .Standard ⟨fun _ => 0, 0⟩).1
        = .ok (some ⟨"AAAA-AAAA-AAAA", "AAAA-AAAA-AAAA"⟩)
    ∧ ((Vault.init ⟨none, none, none, []⟩ "Password123!" .Standard
        ⟨fun _ => 0, 0⟩).2.1).meta.isSome = true :=
  ⟨by decide, by decide, by decide⟩

/-- C6 (amended): in the CLI init flow (prompt_new_password before
Vault::init), a policy-rejected password aborts with its WeakPassword
error before any salt generation, key derivation or write: the vault
state and the random tape are returned untouched and the vault stays
uninitialized. -/
theorem init_command_weak_password (fs : VaultFS) (password : String)
    (lv : SecurityLevel) (r : Rng) (e : VaultError)
    (he : validate_password password = .error e) :
    init_command fs password lv r = (.error e, fs, r)
      ∧ ∃ msg, e = .WeakPassword msg :=
  ⟨by simp [init_command, he], validate_password_error_weak password e he⟩

/-- Witness for the amended C6: a too-short password aborts the init flow
with the minimum-length WeakPassword error and no state change. -/
theorem init_command_weak_password_witness :
    init_command ⟨none, none, none, []⟩ "short" .Standard ⟨fun _ => 0, 0⟩
      = (.error (.WeakPassword "Minimum 12 characters required"),
         ⟨none, none, none, []⟩, ⟨fun _ => 0, 0⟩)
    ∧ ∃ msg, (VaultError.WeakPassword "Minimum 12 characters required")
        = VaultError.WeakPassword msg :=
  init_command_weak_password ⟨none, none, none, []⟩ "short" .Standard ⟨fun _ => 0, 0⟩
    (.WeakPassword "Minimum 12 characters required") (by decide)

/-- C10: locking an existing file whose extension is already the reserved
"stlr" suffix fails with AlreadyExists before reading bytes, deriving a
key, drawing randomness or writing: the store and tape are unchanged. -/
theorem lock_file_already_locked (w : LockWorld) (path password : String)
    (keep : Bool) (r : Rng) (c : List Nat)
    (hex : assocFind w.files path = some c)
    (hext : pathExtension path = some VAULT_EXTENSION) :
    lock_file w path password keep r = (.error (.AlreadyExists path), w, r) := by
  simp only [lock_file, hex]
  rw [if_pos hext]

/-- Witness for C10: a concrete already-locked file is refused. -/
theorem lock_file_already_locked_witness :
    lock_file ⟨[("a.txt.stlr", [1, 2])]⟩ "a.txt.stlr" "pw" false ⟨fun _ => 0, 0⟩
      = (.error (.AlreadyExists "a.txt.stlr"), ⟨[("a.txt.stlr", [1, 2])]⟩,
         ⟨fun _ => 0, 0⟩) :=
  lock_file_already_locked ⟨[("a.txt.stlr", [1, 2])]⟩ "a.txt.stlr" "pw" false
    ⟨fun _ => 0, 0⟩ [1, 2] (by decide) (by decide)

theorem vault_init_invariant (fs : VaultFS) (p : String) (lv : SecurityLevel) (r : Rng)
    (hmeta : fs.meta = none) (hdata : fs.data = []) :
    VaultInvariant (Vault.init fs p lv r).2.1 p := by
  have hnotsome : fs.meta.isSome = false := by rw [hmeta]; rfl
  rw [Vault.init]
  rw [if_neg (by rw [hnotsome]; simp)]
  by_cases hlv : lv = SecurityLevel.Standard
  · rw [if_pos hlv]
    refine ⟨derive_key p (generate_salt r).1, ⟨lv, []⟩, ?_, ?_, ?_⟩
    · simp only [derive_master_key, read_meta, parseMeta_ser]
    · exact read_index_write _ _ _ (generate_salt r).2 rfl
    · refine ⟨?_, ?_, ?_, ?_, ?_⟩ <;> simp [hdata, IndexMatchesData]
  · rw [if_neg hlv]
    refine ⟨derive_key p (generate_salt r).1, ⟨lv, []⟩, ?_, ?_, ?_⟩
    · simp only [derive_master_key, read_meta, parseMeta_ser]
    · exact read_index_write _ _ _ (generate_salt r).2 rfl
    · refine ⟨?_, ?_, ?_, ?_, ?_⟩ <;> simp [hdata, IndexMatchesData]

theorem vault_add_invariant (fs : VaultFS) (src : Option SrcFile) (p : String)
    (r : Rng) (e : VaultEntry) (hpre : VaultInvariant fs p)
    (hok : (Vault.add fs src p r).1 = .ok e) :
    VaultInvariant (Vault.add fs src p r).2.1 p := by
  obtain ⟨key, idx, hkey, hidx, hmatch⟩ := hpre
  obtain ⟨hm1, hm2, hm3, hm4, hm5⟩ := hmatch
  cases src with
  | none => simp [Vault.add] at hok
  | some f =>
    simp only [Vault.add, hkey, hidx] at hok ⊢
    by_cases hdup : (idx.entries.any fun q => q.2.name == f.name) = true
    · rw [if_pos hdup] at hok
      simp at hok
    · rw [if_neg hdup] at hok ⊢
      refine ⟨key, ⟨idx.security_level,
        insertEntry idx.entries (generate_id r).1
          ⟨(generate_id r).1, f.name, f.content.length, 0, f.is_directory⟩⟩,
        ?_, ?_, ?_⟩
      · exact hkey
      · exact read_index_write _ _ _
          (encrypt_with_key f.content key (generate_id r).2).2 rfl
      · refine ⟨?_, ?_, ?_, ?_, ?_⟩
        · intro fl hfl
          simp only at hfl
          rw [fsWrite] at hfl
          rcases (mem_assocSet_keys _ _ _ fl).mp hfl with hin | heq
          · rcases hm1 fl hin with ⟨id0, hid0, hfeq⟩
            refine ⟨id0, ?_, hfeq⟩
            rw [insertEntry]
            exact (mem_assocSet_keys _ _ _ id0).mpr (Or.inl hid0)
          · refine ⟨(generate_id r).1, ?_, heq⟩
            rw [insertEntry]
            exact (mem_assocSet_keys _ _ _ _).mpr (Or.inr rfl)
        · intro id0 hid0
          simp only at hid0 ⊢
          rw [insertEntry] at hid0
          rw [fsWrite]
          rcases (mem_assocSet_keys _ _ _ id0).mp hid0 with hin | heq
          · exact (mem_assocSet_keys _ _ _ _).mpr (Or.inl (hm2 id0 hin))
          · exact (mem_assocSet_keys _ _ _ _).mpr (Or.inr (by rw [heq]))
        · intro q hq
          simp only at hq
          rw [insertEntry] at hq
          rcases mem_assocSet_elim _ _ _ q hq with h1 | h1
          · rw [h1]
          · exact hm3 q h1
        · simp only
          rw [fsWrite]
          exact assocSet_keys_nodup _ _ _ hm4
        · simp only
          rw [insertEntry]
          exact assocSet_keys_nodup _ _ _ hm5

theorem vault_destroy_invariant (fs : VaultFS) (name p : String) (r : Rng)
    (hpre : VaultInvariant fs p) (hok : (Vault.destroy fs name p r).1 = .ok ()) :
    VaultInvariant (Vault.destroy fs name p r).2.1 p := by
  obtain ⟨key, idx, hkey, hidx, hmatch⟩ := hpre
  obtain ⟨hm1, hm2, hm3, hm4, hm5⟩ := hmatch
  cases hfind : idx.entries.find? (fun q => q.2.name == name) with
  | none =>
    simp only [Vault.destroy, hkey, hidx, hfind] at hok
    simp at hok
  | some q =>
    simp only [Vault.destroy, hkey, hidx, hfind] at hok ⊢
    have hqmem : q ∈ idx.entries := List.mem_of_find?_eq_some hfind
    have hqid : q.1 = q.2.id := hm3 q hqmem
    refine ⟨key, ⟨idx.security_level, removeEntry idx.entries q.2.id⟩, hkey, ?_, ?_⟩
    · exact read_index_write _ _ _ r rfl
    · refine ⟨?_, ?_, ?_, ?_, ?_⟩
      · intro fl hfl
        simp only at hfl
        rw [fsRemove] at hfl
        rcases (mem_assocRemove_keys _ _ fl).mp hfl with ⟨hin, hne⟩
        rcases hm1 fl hin with ⟨id0, hid0, hfeq⟩
        refine ⟨id0, ?_, hfeq⟩
        rw [removeEntry]
        refine (mem_assocRemove_keys _ _ id0).mpr ⟨hid0, ?_⟩
        intro hcon
        exact hne (by rw [hfeq, hcon])
      · intro id0 hid0
        simp only at hid0 ⊢
        rw [removeEntry] at hid0
        rw [fsRemove]
        rcases (mem_assocRemove_keys _ _ id0).mp hid0 with ⟨hin, hne⟩
        refine (mem_assocRemove_keys _ _ _).mpr ⟨hm2 id0 hin, ?_⟩
        intro hcon
        exact hne (blobName_inj _ _ hcon)
      · intro q2 hq2
        simp only at hq2
        rw [removeEntry] at hq2
        exact hm3 q2 (mem_assocRemove_elim _ _ _ hq2)
      · simp only
        rw [fsRemove]
        exact assocRemove_keys_nodup _ _ hm4
      · simp only
        rw [removeEntry]
        exact assocRemove_keys_nodup _ _ hm5

theorem reencrypt_blobs_keys (okk nk : List Nat) (es : List (String × VaultEntry)) :
    ∀ (data : List (String × List Nat)) (r : Rng),
    (reencrypt_blobs okk nk es data r).1 = .ok () →
    (∀ f, f ∈ (reencrypt_blobs okk nk es data r).2.1.map Prod.fst
        ↔ f ∈ data.map Prod.fst)
    ∧ ((data.map Prod.fst).Nodup →
        ((reencrypt_blobs okk nk es data r).2.1.map Prod.fst).Nodup) := by
  induction es with
  | nil =>
    intro data r _
    rw [reencrypt_blobs]
    exact ⟨fun f => Iff.rfl, fun h => h⟩
  | cons q rest ih =>
    intro data r h
    cases hl : fsLookup data (blobName q.2.id) with
    | none =>
      simp only [reencrypt_blobs, hl] at h
      simp at h
    | some enc =>
      cases hdec : decrypt_with_key enc okk with
      | error e =>
        simp only [reencrypt_blobs, hl, hdec] at h
        simp at h
      | ok d =>
        simp only [reencrypt_blobs, hl, hdec] at h ⊢
        have hmem : blobName q.2.id ∈ data.map Prod.fst := by
          rw [fsLookup] at hl
          exact assocFind_mem_keys _ _ _ hl
        have ihr := ih (fsWrite data (blobName q.2.id) (encrypt_with_key d nk r).1)
          (encrypt_with_key d nk r).2 h
        refine ⟨?_, ?_⟩
        · intro fl
          rw [ihr.1 fl, fsWrite, mem_assocSet_keys]
          constructor
          · rintro (hin | rfl)
            · exact hin
            · exact hmem
          · exact Or.inl
        · intro hnd
          refine ihr.2 ?_
          rw [fsWrite]
          exact assocSet_keys_nodup _ _ _ hnd

theorem vault_recover_invariant (fs : VaultFS) (c1 c2 npw : String) (r : Rng)
    (key : List Nat) (idx : VaultIndex) (codes : RecoveryCodes)
    (hidx : read_index fs key = .ok idx) (hmatch : IndexMatchesData idx fs)
    (hesc : ∃ encKey, fs.recovery = some encKey
      ∧ RecoveryCodes.decrypt_key c1 c2 encKey = .ok key)
    (hok : (Vault.recover fs c1 c2 npw r).1 = .ok codes) :
    VaultInvariant (Vault.recover fs c1 c2 npw r).2.1 npw := by
  obtain ⟨hm1, hm2, hm3, hm4, hm5⟩ := hmatch
  obtain ⟨encKey, hrec, hdec⟩ := hesc
  cases hm : read_meta fs with
  | error e =>
    simp only [Vault.recover, hm] at hok
    simp at hok
  | ok m =>
    obtain ⟨salt, lv⟩ := m
    by_cases hlv : lv = SecurityLevel.Maximum
    · simp only [Vault.recover, hm, hlv] at hok
      simp at hok
    · simp only [Vault.recover, hm, hrec, hdec, hidx] at hok ⊢
      rw [if_neg hlv] at hok ⊢
      set NK := derive_key npw (generate_salt r).1 with hNK
      rcases hre2 : reencrypt_blobs key NK idx.entries fs.data
          (encrypt_with_key (serIndex idx) NK (generate_salt r).2).2
        with ⟨res, data2, r2⟩
      rw [hre2] at hok
      cases res with
      | error e =>
        exact Except.noConfusion
          (show (Except.error e : VaultResult RecoveryCodes) = .ok codes from hok)
      | ok u =>
        have hkeys := reencrypt_blobs_keys key NK idx.entries fs.data
          (encrypt_with_key (serIndex idx) NK (generate_salt r).2).2
          (by rw [hre2])
        rw [hre2] at hkeys
        simp only at hkeys ⊢
        refine ⟨NK, idx, ?_, ?_, ?_⟩
        · simp only [derive_master_key, read_meta, parseMeta_ser]
        · exact read_index_write _ _ _ (generate_salt r).2 rfl
        · refine ⟨?_, ?_, hm3, ?_, hm5⟩
          · intro fl hfl
            exact hm1 fl ((hkeys.1 fl).mp hfl)
          · intro id0 hid0
            exact (hkeys.1 _).mpr (hm2 id0 hid0)
          · exact hkeys.2 hm4

/-- C9: after every successful mutating vault operation the index entries
and the blob files under data/ are in bijection — init establishes the
invariant on a fresh root, and add, destroy and recover preserve it (for
recover, stated from the bijection under the old master key recovered
through the escrow). -/
theorem vault_index_blob_bijection :
    (∀ (fs : VaultFS) (p : String) (lv : SecurityLevel) (r : Rng),
      fs.meta = none → fs.data = [] →
      VaultInvariant (Vault.init fs p lv r).2.1 p)
    ∧ (∀ (fs : VaultFS) (src : Option SrcFile) (p : String) (r : Rng) (e : VaultEntry),
      VaultInvariant fs p → (Vault.add fs src p r).1 = .ok e →
      VaultInvariant (Vault.add fs src p r).2.1 p)
    ∧ (∀ (fs : VaultFS) (name p : String) (r : Rng),
      VaultInvariant fs p → (Vault.destroy fs name p r).1 = .ok () →
      VaultInvariant (Vault.destroy fs name p r).2.1 p)
    ∧ (∀ (fs : VaultFS) (c1 c2 npw : String) (r : Rng) (key : List Nat)
        (idx : VaultIndex) (codes : RecoveryCodes),
      read_index fs key = .ok idx → IndexMatchesData idx fs →
      (∃ encKey, fs.recovery = some encKey
        ∧ RecoveryCodes.decrypt_key c1 c2 encKey = .ok key) →
      (Vault.recover fs c1 c2 npw r).1 = .ok codes →
      VaultInvariant (Vault.recover fs c1 c2 npw r).2.1 npw) :=
  ⟨vault_init_invariant, vault_add_invariant, vault_destroy_invariant,
   vault_recover_invariant⟩

/-- Witness for C9: initializing a concrete fresh root establishes the
bijection invariant. -/
theorem vault_index_blob_bijection_witness :
    VaultInvariant (Vault.init ⟨none, none, none, []⟩ "pw" .Standard
      ⟨fun _ => 0, 0⟩).2.1 "pw" :=
  vault_index_blob_bijection.1 ⟨none, none, none, []⟩ "pw" .Standard
    ⟨fun _ => 0, 0⟩ rfl rfl
